import Mathlib

/-!
Verification of the commit-history analysis engine of the `go-semver-release`
repository against its natural-language specification.

The only implementation file present in the repository's sources is the
branch-aware commit walker (`internal/commit/walker.go`); it is embedded
faithfully below, with Go slices becoming Lean lists and the in-place pointer
mutations of `Next` becoming explicit state passing.  The repository otherwise
contains only the test files of the version-computation engine (the parser,
the release-rule table and the tag locator); those components are modelled
from the specification, with every behavioural choice pinned by the
expectations asserted in the repository's own tests, as noted on each
definition.
-/

namespace SemRel

/-- A commit hash; the graph structure is all that matters to the walker, so
hashes are plain naturals. -/
abbrev Hash := Nat

/-- The external version-control collaborator consumed by the walker
(spec section 6): ordered parent lists and the merge-base query, both read
only.  `parents c = []` marks a root commit; `mergeBase a b = []` means the
two commits are unrelated. -/
structure Repo where
  parents : Hash → List Hash
  mergeBase : Hash → Hash → List Hash

/-- Embedding of `queueEntry` from `internal/commit/walker.go`: a pending
branch cursor.  The Go field `end` (the branch's private boundary, `nil` for
the mainline) is called `stop` here because `end` is a Lean keyword. -/
structure Entry where
  current : Hash
  stop : Option Hash
deriving DecidableEq

/-- Intermediate state of one `Next` call while it iterates over the parents
of the processed entry.  In Go the processed entry is a pointer shared with
the queue; here the queue is split into the entries strictly below it
(`below`), a flag recording whether it is still in the queue
(`entryPresent`, it starts at the top and can be removed by the boundary
check), its mutable `current` field (`entryCur`) and the entries appended
above it during this call (`top`). -/
structure LoopState where
  below : List Entry
  entryPresent : Bool
  entryCur : Hash
  top : List Entry
  siblings : List Hash
deriving DecidableEq

/-- Embedding of the merge-base scan of `walker.go` lines 47-57: walk the
sibling list (already reversed by the caller, matching `slices.Backward`)
and return the first element of the first non-empty merge base. -/
def findMergeBase (r : Repo) (p : Hash) : List Hash → Option Hash
  | [] => none
  | s :: rest =>
    match r.mergeBase p s with
    | [] => findMergeBase r p rest
    | b :: _ => some b

/-- Embedding of `w.queue = w.queue[:len(w.queue)-1]` (walker.go line 40):
drop whatever entry is currently last in the queue, which is the last entry
pushed during this call if any, else the processed entry itself if still
present, else the last entry below it. -/
def popLast (st : LoopState) : LoopState :=
  if st.top.isEmpty then
    if st.entryPresent then { st with entryPresent := false }
    else { st with below := st.below.dropLast }
  else { st with top := st.top.dropLast }

/-- Embedding of the body of the `parents.ForEach` callback in
`walker.go` lines 37-69, for a single parent `p`.  The boundary comparison
`entry.end.Hash == p.Hash` uses the entry's original `stop` field, which the
loop never mutates; the Go counter `i` equals `siblings.length`.  On a
missing merge base the error carries `entry.current` (already overwritten
with parent 0 by the first iteration) and `p`, exactly as the Go error
message does. -/
def processParent (r : Repo) (stop : Option Hash) (st : LoopState) (p : Hash) :
    Except (Hash × Hash) LoopState :=
  let st := if stop = some p then popLast st else st
  if st.siblings.isEmpty then
    .ok { st with entryCur := p, siblings := st.siblings ++ [p] }
  else
    match findMergeBase r p st.siblings.reverse with
    | some b => .ok { st with top := st.top ++ [⟨p, some b⟩], siblings := st.siblings ++ [p] }
    | none => .error (st.entryCur, p)

/-- Result of one `Next` call: end of iteration (`io.EOF` on an empty
queue), a yielded commit together with the updated queue, or the
"could not find merge base of a and b" error. -/
inductive NextResult
  | eof
  | yield (c : Hash) (q : List Entry)
  | fail (a b : Hash)
deriving DecidableEq

/-- Embedding of `(*commitWalker).Next` (walker.go lines 26-80).  The queue
is processed from its last entry; the commit returned is the entry's
`current` captured before the parent loop runs; a commit with no parents
empties the whole queue.  After a merge-base error the walk is over (the
`ForEach` driver stops on any error), so the partially mutated queue of a
failed call is not represented. -/
def next (r : Repo) (q : List Entry) : NextResult :=
  match q.getLast? with
  | none => .eof
  | some entry =>
    match (r.parents entry.current).foldlM (processParent r entry.stop)
        ⟨q.dropLast, true, entry.current, [], []⟩ with
    | .error (a, b) => .fail a b
    | .ok st =>
      if (r.parents entry.current).isEmpty then .yield entry.current []
      else
        .yield entry.current
          (st.below ++ (if st.entryPresent then [⟨st.entryCur, entry.stop⟩] else []) ++ st.top)

/-- Outcome of a finished walk: either the merge-base failure of some step,
or fuel exhaustion (the Go walker has no fuel; every theorem below supplies
enough). -/
inductive WalkErr
  | outOfFuel
  | noMergeBase (a b : Hash)
deriving DecidableEq

/-- Embedding of the `ForEach` driver (walker.go lines 82-102) with the
consumer collecting every yielded commit: repeatedly call `next` until end
of iteration, stopping on the first error. -/
def walk (r : Repo) : Nat → List Entry → Except WalkErr (List Hash)
  | 0, _ => .error .outOfFuel
  | Nat.succ fuel, q =>
    match next r q with
    | .eof => .ok []
    | .fail a b => .error (.noMergeBase a b)
    | .yield c q2 => (walk r fuel q2).map fun l => c :: l

/-- Embedding of `NewWalker` (walker.go lines 22-24): a single entry with no
boundary. -/
def newWalker (c : Hash) : List Entry := [⟨c, none⟩]

/-- Embedding of `(*commitWalker).Close` (walker.go line 104):
`w.queue = nil`. -/
def close (_ : List Entry) : List Entry := []

/-- The side-branch entries a merge commit contributes to the queue: for each
parent of index at least 1 (in recorded order), the boundary is the nearest
non-empty merge base against the previously queued siblings, scanned most
recently queued first; `none` when some parent finds no merge base.
`sibs` is the list of parents already processed (starting with parent 0). -/
def buildSides (r : Repo) : List Hash → List Hash → Option (List Entry)
  | _, [] => some []
  | sibs, p :: rest =>
    match findMergeBase r p sibs.reverse with
    | none => none
    | some b => (buildSides r (sibs ++ [p]) rest).map fun l => ⟨p, some b⟩ :: l

/-- The commit graph built by `TestWalker_MultiBranch_OctopusMerge`
(walker_test.go lines 354-412).  Hashes: 0 = First commit, 1 = main-1,
2 = beta-1, 3 = main-2, 4 = beta-2, 5 = alpha-1, 6 = alpha-2, 7 = main-3,
8 = beta-3, 9 = alpha-3, 10 = the octopus merge with parents
[main-3, beta-3, alpha-3], 11 = main-5.  `mergeBase` lists the real git
merge bases for the two pairs the walker queries on this graph (beta-3
against main-3 forks at main-1; alpha-3 against beta-3 forks at beta-2). -/
def octoRepo : Repo where
  parents n :=
    match n with
    | 1 => [0]
    | 2 => [1]
    | 3 => [1]
    | 4 => [2]
    | 5 => [4]
    | 6 => [5]
    | 7 => [3]
    | 8 => [4]
    | 9 => [6]
    | 10 => [7, 8, 9]
    | 11 => [10]
    | _ => []
  mergeBase a b :=
    match a, b with
    | 8, 7 => [1]
    | 9, 8 => [4]
    | _, _ => []

/-- A merge commit 2 whose second parent 1 shares no history with its first
parent 0: the broken topology of spec section 4.1 on which the walk must
fail. -/
def brokenRepo : Repo where
  parents n :=
    match n with
    | 2 => [0, 1]
    | _ => []
  mergeBase _ _ := []

/-- An octopus merge 5 with parents 0, 1 and 2 where parent 1 (index 1)
shares the merge base 3 with parent 0, but parent 2 (index 2) has no
merge base with either already queued sibling. -/
def octoBrokenRepo : Repo where
  parents n :=
    match n with
    | 5 => [0, 1, 2]
    | 1 => [3]
    | 0 => [3]
    | _ => []
  mergeBase a b :=
    match a, b with
    | 1, 0 => [3]
    | _, _ => []

/-- A semantic version (spec section 3).  Prerelease and build-metadata
decoration is pure formatting (spec section 4.5 step 6) and never
participates in the bump arithmetic or the ordering, so it is not carried
here. -/
structure Version where
  major : Nat
  minor : Nat
  patch : Nat
deriving DecidableEq

/-- Modelled from the spec: the patch increment of the version package,
absent from the sources; pinned by the per-commit version comments of
`TestLocalCmd_Release` (cmd/local_test.go lines 42-56). -/
def bumpPatch (v : Version) : Version := { v with patch := v.patch + 1 }

/-- Modelled from the spec: the minor increment, resetting patch to zero. -/
def bumpMinor (v : Version) : Version := { v with minor := v.minor + 1, patch := 0 }

/-- Modelled from the spec: the major increment, resetting minor and patch
to zero. -/
def bumpMajor (v : Version) : Version := ⟨v.major + 1, 0, 0⟩

/-- A bump level (spec glossary); `none` is represented with `Option`. -/
inductive Level
  | patch
  | minor
  | major
deriving DecidableEq

/-- The single increment at a given level, exactly the table of spec
section 4.5 step 5. -/
def applyLevel : Level → Version → Version
  | .patch => bumpPatch
  | .minor => bumpMinor
  | .major => bumpMajor

def patchR : String := "patch"

def minorR : String := "minor"

def majorR : String := "major"

/-- The configuration string naming each bump level. -/
def levelName : Level → String
  | .patch => patchR
  | .minor => minorR
  | .major => majorR

def featT : String := "feat"

def fixT : String := "fix"

def perfT : String := "perf"

def revertT : String := "revert"

def choresT : String := "chores"

def refactorT : String := "refactor"

def testT : String := "test"

def ciT : String := "ci"

def styleT : String := "style"

/-- A release rule (spec section 3): a commit type mapped to the string
naming a bump level, as read from configuration. -/
structure ReleaseRule where
  commitType : String
  releaseType : String
deriving DecidableEq

/-- Modelled from the spec and the repository's tests: the default rule set
of the absent `rule` package.  Besides the spec's `feat`/`fix`/`perf`
entries it must map `revert` to a patch bump, because
`TestLocalCmd_Release` (cmd/local_test.go line 54) expects the `revert`
commit to move the version from 1.2.1 to 1.2.2. -/
def defaultRules : List ReleaseRule :=
  [⟨featT, minorR⟩, ⟨fixT, patchR⟩, ⟨perfT, patchR⟩, ⟨revertT, patchR⟩]

/-- Whether some commit type occurs in two different rules of the list. -/
def hasDuplicates : List ReleaseRule → Bool
  | [] => false
  | x :: rest => rest.any (fun y => y.commitType == x.commitType) || hasDuplicates rest

inductive RuleErr
  | duplicate
deriving DecidableEq

/-- Modelled from the spec: construction of a rule table (spec section 4.3),
absent from the sources; it fails with the duplicate-rule error
(`rule.ErrDuplicateReleaseRule`, asserted by `TestLocalCmd_InvalidCustomRules`)
whenever the same commit type appears more than once, and otherwise
accepts the list as given. -/
def rulesInit (rs : List ReleaseRule) : Except RuleErr (List ReleaseRule) :=
  if hasDuplicates rs then .error .duplicate else .ok rs

/-- A classified commit as consumed by the version computation (spec
section 4.2 interface): its change-type token and its breaking flag.  A
commit that does not match the conventional grammar carries a type no rule
maps, which degrades to "no bump". -/
structure ConvCommit where
  ctype : String
  breaking : Bool
deriving DecidableEq

/-- Rule lookup by commit type: the release-type string of the first rule
for the type, or `none` for an unknown type (spec section 4.3: never an
error). -/
def lookupRule (rs : List ReleaseRule) (t : String) : Option String :=
  (rs.find? fun x => x.commitType == t).map fun x => x.releaseType

inductive ComputeErr
  | unknownReleaseType (s : String)
deriving DecidableEq

/-- Modelled from the spec and the repository's tests: how one classified
commit advances the (version, new-release) accumulator in the absent
parser.  A breaking commit forces a major bump (spec section 4.5 step 3);
otherwise the rule table names the level, an unmapped type is a no-op, and
a release-type string outside major/minor/patch is the fatal
configuration error asserted by `TestParser_UnknownReleaseType`. -/
def applyCommit (rs : List ReleaseRule) (acc : Version × Bool) (c : ConvCommit) :
    Except ComputeErr (Version × Bool) :=
  if c.breaking then .ok (bumpMajor acc.fst, true)
  else
    match lookupRule rs c.ctype with
    | none => .ok acc
    | some rel =>
      if rel = patchR then .ok (bumpPatch acc.fst, true)
      else if rel = minorR then .ok (bumpMinor acc.fst, true)
      else if rel = majorR then .ok (bumpMajor acc.fst, true)
      else .error (.unknownReleaseType rel)

/-- Modelled from the spec and the repository's tests: `ComputeNewSemver` of
the absent parser, starting from the baseline version (the latest release
tag, or 0.0.0 for an untagged repository) and applying one bump per
classified commit, oldest first.  The per-commit application and its order
are pinned by the repository's own tests: the running per-commit versions
annotated in `TestLocalCmd_Release` (0.0.1, 1.0.0, 1.1.0, ..., 1.2.2) and
the expectation 1.0.1 for the oldest-first sequence breaking-feat then fix
in `TestParser_ComputeNewSemverNumberOnUntaggedRepositoryWithMajorRelease`
(walker_test.go lines 690-717). -/
def computeNewSemver (rs : List ReleaseRule) (baseline : Version)
    (commits : List ConvCommit) : Except ComputeErr (Version × Bool) :=
  commits.foldlM (applyCommit rs) (baseline, false)

/-- The bump level one commit implies, used by the spec-words variant of the
computation below: breaking forces major, otherwise the rule table decides,
with the same fatal error on an unknown release-type string. -/
def levelOf (rs : List ReleaseRule) (c : ConvCommit) : Except ComputeErr (Option Level) :=
  if c.breaking then .ok (some .major)
  else
    match lookupRule rs c.ctype with
    | none => .ok none
    | some rel =>
      if rel = patchR then .ok (some .patch)
      else if rel = minorR then .ok (some .minor)
      else if rel = majorR then .ok (some .major)
      else .error (.unknownReleaseType rel)

/-- Numeric precedence of bump levels: major over minor over patch over
none (spec section 4.5 step 3). -/
def levelRank : Option Level → Nat
  | Option.none => 0
  | some .patch => 1
  | some .minor => 2
  | some .major => 3

/-- The stronger of two bump levels. -/
def maxLevel (a b : Option Level) : Option Level :=
  if levelRank a ≤ levelRank b then b else a

/-- The strongest bump level across a commit set, for the spec-words
variant of the computation. -/
def strongestLevel (rs : List ReleaseRule) (commits : List ConvCommit) :
    Except ComputeErr (Option Level) :=
  commits.foldlM (fun acc c => (levelOf rs c).map (maxLevel acc)) Option.none

/-- The version computation exactly as the spec words it (section 4.5
steps 3 and 5): accumulate the strongest bump across the whole set, then
apply exactly one increment at that level to the baseline; no level means no
new release.  Stated only to be compared with `computeNewSemver`, the
computation the repository's tests pin down. -/
def specComputeOnce (rs : List ReleaseRule) (baseline : Version)
    (commits : List ConvCommit) : Except ComputeErr (Version × Bool) :=
  (strongestLevel rs commits).map fun l =>
    match l with
    | Option.none => (baseline, false)
    | some lv => (applyLevel lv baseline, true)

/-- The thirteen commit types of `TestLocalCmd_Release` (cmd/local_test.go
lines 42-56), oldest first; the second commit is the breaking `feat!`. -/
def localCmdReleaseCommits : List ConvCommit :=
  [⟨fixT, false⟩, ⟨featT, true⟩, ⟨featT, false⟩, ⟨fixT, false⟩, ⟨fixT, false⟩,
   ⟨choresT, false⟩, ⟨refactorT, false⟩, ⟨testT, false⟩, ⟨ciT, false⟩,
   ⟨featT, false⟩, ⟨perfT, false⟩, ⟨revertT, false⟩, ⟨styleT, false⟩]

/-- A repository tag: its name as tagged and the commit it points to. -/
structure TagRef where
  name : String
  target : Hash
deriving DecidableEq

/-- Whether a character is a decimal digit. -/
def isDigitC (c : Char) : Bool := 48 ≤ c.toNat && c.toNat ≤ 57

/-- Parse a non-empty all-digit character list as a natural number. -/
def parseNat (l : List Char) : Option Nat :=
  if l.isEmpty then Option.none
  else if l.all isDigitC then some (l.foldl (fun n c => n * 10 + (c.toNat - 48)) 0)
  else Option.none

def dotC : Char := '.'

/-- Split a character list at every dot. -/
def splitDots : List Char → List (List Char)
  | [] => [[]]
  | c :: rest =>
    match splitDots rest with
    | [] => [[]]
    | g :: gs => if c = dotC then [] :: g :: gs else (c :: g) :: gs

/-- Parse the bare `MAJOR.MINOR.PATCH` core of a semantic version: exactly
three dot-separated numbers. -/
def parseCore (l : List Char) : Option Version :=
  match splitDots l with
  | [a, b, c] =>
    match parseNat a, parseNat b, parseNat c with
    | some x, some y, some z => some ⟨x, y, z⟩
    | _, _, _ => Option.none
  | _ => Option.none

def dashC : Char := '-'

def plusC : Char := '+'

/-- Split a character list at the first occurrence of a character:
the part before it, and the part after it when it occurs at all. -/
def splitAtChar (c : Char) : List Char → List Char × Option (List Char)
  | [] => ([], Option.none)
  | x :: xs =>
    if x = c then ([], some xs)
    else
      match splitAtChar c xs with
      | (a, b) => (x :: a, b)

/-- A full semantic version as named by a tag (spec section 3): the
major/minor/patch core, the optional prerelease identifier and the optional
build metadata.  Identifiers are kept as character lists; build metadata
never participates in ordering. -/
structure SemVer where
  core : Version
  prerel : Option (List Char)
  build : Option (List Char)
deriving DecidableEq

/-- Modelled from the spec: parse a tag-name suffix against the tag grammar
of spec section 6, `MAJOR.MINOR.PATCH[-prerelease][+buildmetadata]`: the
build metadata is everything after the first plus sign, the prerelease
identifier everything after the first dash before that (later dashes and
dots stay inside it), and the rest must be the three-number core; an empty
identifier after a separator is invalid. -/
def parseSemVer (l : List Char) : Option SemVer :=
  match splitAtChar plusC l with
  | (beforePlus, buildOpt) =>
    match splitAtChar dashC beforePlus with
    | (corePart, prerelOpt) =>
      match parseCore corePart with
      | Option.none => Option.none
      | some v =>
        if prerelOpt = some [] then Option.none
        else if buildOpt = some [] then Option.none
        else some ⟨v, prerelOpt, buildOpt⟩

/-- Whether the first character list leads the second. -/
def leads : List Char → List Char → Bool
  | [], _ => true
  | _ :: _, [] => false
  | a :: as, b :: bs => a == b && leads as bs

/-- Strip the configured tag-name leader from a tag name, failing if the
name does not start with it. -/
def stripPre (pre s : List Char) : Option (List Char) :=
  if leads pre s then some (s.drop pre.length) else Option.none

/-- The candidate release tags: tags whose name, after stripping the
configured leader, parses as a semantic version, paired with that
version (spec section 4.4; invalid names are silently excluded). -/
def semverTags (pre : String) (tags : List TagRef) : List (TagRef × SemVer) :=
  tags.filterMap fun t =>
    match stripPre pre.toList t.name.toList with
    | Option.none => Option.none
    | some rest => (parseSemVer rest).map fun v => (t, v)

/-- The strict ordering on version cores: compare major, then minor, then
patch. -/
def vlt (a b : Version) : Prop :=
  a.major < b.major ∨
    (a.major = b.major ∧ (a.minor < b.minor ∨ (a.minor = b.minor ∧ a.patch < b.patch)))

instance instDecVlt (a b : Version) : Decidable (vlt a b) := by
  unfold vlt
  exact inferInstance

/-- Lexical comparison of prerelease identifiers, by code point. -/
def lexLe : List Char → List Char → Prop
  | [], _ => True
  | _ :: _, [] => False
  | x :: xs, y :: ys => x.toNat < y.toNat ∨ (x.toNat = y.toNat ∧ lexLe xs ys)

instance instDecLexLe : ∀ (a b : List Char), Decidable (lexLe a b)
  | [], _ => .isTrue True.intro
  | _ :: _, [] => .isFalse fun h => h
  | x :: xs, y :: ys =>
    have : Decidable (lexLe xs ys) := instDecLexLe xs ys
    inferInstanceAs (Decidable (x.toNat < y.toNat ∨ (x.toNat = y.toNat ∧ lexLe xs ys)))

/-- Prerelease precedence of spec section 3 at an equal core: a version
with no prerelease is strictly greater than one with a prerelease, and two
prereleases compare lexically. -/
def prerelLe : Option (List Char) → Option (List Char) → Prop
  | Option.none, Option.none => True
  | Option.none, some _ => False
  | some _, Option.none => True
  | some x, some y => lexLe x y

instance instDecPrerelLe : ∀ (a b : Option (List Char)), Decidable (prerelLe a b)
  | Option.none, Option.none => .isTrue True.intro
  | Option.none, some _ => .isFalse fun h => h
  | some _, Option.none => .isTrue True.intro
  | some x, some y => inferInstanceAs (Decidable (lexLe x y))

/-- The version ordering of spec section 3: compare the cores numerically;
at an equal core a bare version outranks any prerelease and prereleases
compare lexically; build metadata never participates. -/
def svle (a b : SemVer) : Prop :=
  vlt a.core b.core ∨ (a.core = b.core ∧ prerelLe a.prerel b.prerel)

instance instDecSvle (a b : SemVer) : Decidable (svle a b) := by
  unfold svle
  exact inferInstance

/-- One step of the maximum scan over candidate tags: keep the candidate
with the larger version, a later-created tag winning a tie. -/
def pickLater (acc : Option (TagRef × SemVer)) (tv : TagRef × SemVer) :
    Option (TagRef × SemVer) :=
  match acc with
  | Option.none => some tv
  | some cur => if svle cur.snd tv.snd then some tv else some cur

/-- Modelled from the spec: `fetchLatestSemverTag` of the absent parser
(spec section 4.4, pinned by `TestParser_FetchLatestSemverTagWithNoTag` and
`TestParser_FetchLatestSemverTagWithMultipleTags`): the candidate release
tag with the maximum version, a later-created tag winning a tie in the
creation-ordered tag list, or `none` when no tag parses. -/
def latestSemverTag (pre : String) (tags : List TagRef) : Option (TagRef × SemVer) :=
  (semverTags pre tags).foldl pickLater Option.none

/-- The default version when there is no prior release: 0.0.0 with no
decoration. -/
def zeroSemVer : SemVer := ⟨⟨0, 0, 0⟩, Option.none, Option.none⟩

/-- The baseline version the computation starts from: the latest release
tag's version, or 0.0.0 when there is no prior release (spec section 4.5
step 1). -/
def baselineOf (pre : String) (tags : List TagRef) : SemVer :=
  match latestSemverTag pre tags with
  | Option.none => zeroSemVer
  | some (_, v) => v

def s200 : String := "2.0.0"

def s201 : String := "2.0.1"

def s300 : String := "3.0.0"

def s250 : String := "2.5.0"

def s010 : String := "0.1.0"

def sNotSemver : String := "not-semver"

def s100 : String := "1.0.0"

def s100rc : String := "1.0.0-rc"

def s300rc : String := "3.0.0-rc"

def s111alpha : String := "1.1.1-alpha"

def s111meta : String := "1.1.1+foobarbaz"

def rcS : String := "rc"

def alphaS : String := "alpha"

def fooMetaS : String := "foobarbaz"

def emptyS : String := ""

/-- The tag set of the claim's example (spec section 8), in creation order,
plus one tag that does not parse as a semantic version. -/
def exampleTags : List TagRef :=
  [⟨s200, 1⟩, ⟨s201, 2⟩, ⟨sNotSemver, 3⟩, ⟨s300, 4⟩, ⟨s250, 5⟩, ⟨s010, 6⟩]

/-- The release-type string of `TestParser_UnknownReleaseType`, outside the
recognized set. -/
def unknownR : String := "unknown"

/-- The parent loop of `Next` over the parents of index at least 1: starting
from any state that still holds the entry with its `current` already moved
to parent 0, and provided no parent equals the entry's boundary and every
parent finds a merge base, the loop appends exactly the entries described by
`buildSides` and records every parent as a sibling. -/
theorem foldl_sides (r : Repo) (stop : Option Hash) :
    ∀ (ps sibs : List Hash) (below : List Entry) (cur : Hash)
      (top sides : List Entry),
      sibs ≠ [] →
      (∀ p ∈ ps, stop ≠ some p) →
      buildSides r sibs ps = some sides →
      ps.foldlM (processParent r stop) (⟨below, true, cur, top, sibs⟩ : LoopState)
        = .ok ⟨below, true, cur, top ++ sides, sibs ++ ps⟩ := by
  intro ps
  induction ps with
  | nil =>
    intro sibs below cur top sides hs hstop hb
    simp [buildSides] at hb
    subst hb
    simp [List.foldlM, pure, Except.pure]
  | cons p rest ih =>
    intro sibs below cur top sides hs hstop hb
    have hstopp : stop ≠ some p := hstop p (List.mem_cons_self p rest)
    cases hfb : findMergeBase r p sibs.reverse with
    | none => simp [buildSides, hfb] at hb
    | some b =>
      simp only [buildSides, hfb, Option.map_eq_some'] at hb
      obtain ⟨sides2, hb2, hsides⟩ := hb
      have hstep : processParent r stop (⟨below, true, cur, top, sibs⟩ : LoopState) p
          = .ok ⟨below, true, cur, top ++ [⟨p, some b⟩], sibs ++ [p]⟩ := by
        simp [processParent, if_neg hstopp, List.isEmpty_eq_true, hs, hfb]
      simp only [List.foldlM]
      rw [hstep]
      simp only [bind, Except.bind]
      have h2 := ih (sibs ++ [p]) below cur (top ++ [(⟨p, some b⟩ : Entry)]) sides2 (by simp)
        (fun q hq => hstop q (List.mem_cons_of_mem p hq)) hb2
      rw [h2]
      simp [← hsides]

/-- C1: at a merge commit the walker processes the parents in recorded
order: parent 0 replaces the entry in place as the mainline continuation
(keeping the entry's boundary and its position below every pushed side
entry, so it is resumed only after the stack above it is exhausted), and
every parent of index at least 1 is pushed above it, in order, with its
private boundary the nearest non-empty merge base found scanning the
previously queued siblings most recently queued first.  A branch whose
single parent is its assigned boundary is removed without the boundary
being yielded, and otherwise continues into its parent.  On the octopus
graph of `TestWalker_MultiBranch_OctopusMerge` the walk reproduces exactly
the depth-first, most-recent-side-branch-first order the test expects. -/
theorem C1_walker_merge_ordering :
    (∀ (r : Repo) (below : List Entry) (c : Hash) (stop : Option Hash)
       (p0 : Hash) (ps : List Hash) (sides : List Entry),
       r.parents c = p0 :: ps →
       (∀ p ∈ r.parents c, stop ≠ some p) →
       buildSides r [p0] ps = some sides →
       next r (below ++ [⟨c, stop⟩]) = .yield c (below ++ ⟨p0, stop⟩ :: sides))
    ∧ (∀ (r : Repo) (below : List Entry) (c b : Hash),
       r.parents c = [b] →
       next r (below ++ [⟨c, some b⟩]) = .yield c below)
    ∧ (∀ (r : Repo) (below : List Entry) (c p : Hash) (stop : Option Hash),
       r.parents c = [p] → stop ≠ some p →
       next r (below ++ [⟨c, stop⟩]) = .yield c (below ++ [⟨p, stop⟩]))
    ∧ walk octoRepo 20 (newWalker 11) = .ok [11, 10, 9, 6, 5, 8, 4, 2, 7, 3, 1, 0] := by
  refine ⟨?_, ?_, ?_, by rfl⟩
  · intro r below c stop p0 ps sides hpar hstop hsides
    have hp0 : stop ≠ some p0 := hstop p0 (by rw [hpar]; exact List.mem_cons_self _ _)
    have hstep : processParent r stop (⟨below, true, c, [], []⟩ : LoopState) p0
        = .ok ⟨below, true, p0, [], [p0]⟩ := by
      simp [processParent, if_neg hp0]
    have hrest : ∀ p ∈ ps, stop ≠ some p := fun p hp =>
      hstop p (by rw [hpar]; exact List.mem_cons_of_mem _ hp)
    have hfold := foldl_sides r stop ps [p0] below p0 [] sides (by simp) hrest hsides
    simp only [next, List.getLast?_concat, List.dropLast_concat, hpar, List.foldlM]
    rw [hstep]
    simp only [bind, Except.bind]
    rw [hfold]
    simp
  · intro r below c b hpar
    have hstep : processParent r (some b) (⟨below, true, c, [], []⟩ : LoopState) b
        = .ok ⟨below, false, b, [], [b]⟩ := by
      simp [processParent, popLast]
    simp only [next, List.getLast?_concat, List.dropLast_concat, hpar, List.foldlM]
    rw [hstep]
    simp [bind, Except.bind, List.foldlM, pure, Except.pure]
  · intro r below c p stop hpar hp
    have hstep : processParent r stop (⟨below, true, c, [], []⟩ : LoopState) p
        = .ok ⟨below, true, p, [], [p]⟩ := by
      simp [processParent, if_neg hp]
    simp only [next, List.getLast?_concat, List.dropLast_concat, hpar, List.foldlM]
    rw [hstep]
    simp [bind, Except.bind, List.foldlM, pure, Except.pure]

/-- C1 witness: the octopus merge commit 10 of the test graph, processed
from the queue state the walk actually reaches, yields the mainline
continuation 7 below the two side entries for parents 8 and 9 with their
computed boundaries. -/
theorem C1_witness :
    octoRepo.parents 10 = [7, 8, 9] ∧
    next octoRepo ([] ++ [⟨10, Option.none⟩])
      = .yield 10 ([] ++ ⟨7, Option.none⟩ :: [⟨8, some 1⟩, ⟨9, some 4⟩]) :=
  ⟨rfl, C1_walker_merge_ordering.1 octoRepo [] 10 Option.none 7 [8, 9]
    [⟨8, some 1⟩, ⟨9, some 4⟩] rfl (by decide) rfl⟩

theorem popLast_entryCur (st : LoopState) : (popLast st).entryCur = st.entryCur := by
  unfold popLast; split_ifs <;> rfl

theorem popLast_siblings (st : LoopState) : (popLast st).siblings = st.siblings := by
  unfold popLast; split_ifs <;> rfl

/-- The effectful fold splits over list concatenation. -/
theorem foldlM_append_except {ε α β : Type} (f : β → α → Except ε β) :
    ∀ (xs ys : List α) (acc : β),
      (xs ++ ys).foldlM f acc = xs.foldlM f acc >>= fun b => ys.foldlM f b := by
  intro xs
  induction xs with
  | nil => intro ys acc; simp [List.foldlM, bind, Except.bind, pure, Except.pure]
  | cons x rest ih =>
    intro ys acc
    simp only [List.cons_append, List.foldlM]
    cases hfx : f acc x with
    | error e => simp [bind, Except.bind, hfx]
    | ok b => simp [bind, Except.bind, hfx, ih]

/-- Scanning a sibling list in which every sibling has an empty merge base
with `p` finds nothing. -/
theorem findMergeBase_none (r : Repo) (p : Hash) :
    ∀ l : List Hash, (∀ s ∈ l, r.mergeBase p s = []) → findMergeBase r p l = Option.none := by
  intro l
  induction l with
  | nil => intro h; rfl
  | cons s rest ih =>
    intro h
    have hs := h s (List.mem_cons_self _ _)
    simp only [findMergeBase, hs]
    exact ih fun q hq => h q (List.mem_cons_of_mem _ hq)

/-- A parent of index at least 1 that finds a merge base leaves the entry's
current commit untouched and records itself as a sibling, whatever the
boundary pop did to the rest of the state. -/
theorem processParent_ok (r : Repo) (stop : Option Hash) (st : LoopState) (p : Hash) (b : Hash)
    (hs : st.siblings ≠ [])
    (hfb : findMergeBase r p st.siblings.reverse = some b) :
    ∃ st2 : LoopState, processParent r stop st p = .ok st2 ∧
      st2.entryCur = st.entryCur ∧ st2.siblings = st.siblings ++ [p] := by
  unfold processParent
  have hsb : (if stop = some p then popLast st else st).siblings = st.siblings := by
    split
    · exact popLast_siblings st
    · rfl
  have hec : (if stop = some p then popLast st else st).entryCur = st.entryCur := by
    split
    · exact popLast_entryCur st
    · rfl
  have hie : st.siblings.isEmpty = false := by
    cases hx : st.siblings with
    | nil => exact absurd hx hs
    | cons a l => rfl
  simp only [hsb, hec, hie, Bool.false_eq_true, if_false, hfb]
  exact ⟨_, rfl, rfl, rfl⟩

/-- A parent of index at least 1 whose merge-base scan over the queued
siblings comes up empty makes the loop fail with the entry's (already
overwritten) current commit and that parent. -/
theorem processParent_err (r : Repo) (stop : Option Hash) (st : LoopState) (p : Hash)
    (hs : st.siblings ≠ [])
    (hfb : findMergeBase r p st.siblings.reverse = Option.none) :
    processParent r stop st p = .error (st.entryCur, p) := by
  unfold processParent
  have hsb : (if stop = some p then popLast st else st).siblings = st.siblings := by
    split
    · exact popLast_siblings st
    · rfl
  have hec : (if stop = some p then popLast st else st).entryCur = st.entryCur := by
    split
    · exact popLast_entryCur st
    · rfl
  have hie : st.siblings.isEmpty = false := by
    cases hx : st.siblings with
    | nil => exact absurd hx hs
    | cons a l => rfl
  simp only [hsb, hec, hie, Bool.false_eq_true, if_false, hfb]

/-- When every queued side parent finds a merge base (`buildSides`
succeeds), the parent loop runs through them, preserving the entry's
current commit and accumulating them as siblings. -/
theorem foldl_reaches (r : Repo) (stop : Option Hash) :
    ∀ (qs : List Hash) (st : LoopState),
      st.siblings ≠ [] →
      (buildSides r st.siblings qs).isSome = true →
      ∃ st2 : LoopState, qs.foldlM (processParent r stop) st = .ok st2 ∧
        st2.entryCur = st.entryCur ∧ st2.siblings = st.siblings ++ qs := by
  intro qs
  induction qs with
  | nil =>
    intro st hs _
    exact ⟨st, by simp [List.foldlM, pure, Except.pure], rfl, by simp⟩
  | cons q qs ih =>
    intro st hs hb
    cases hfb : findMergeBase r q st.siblings.reverse with
    | none => rw [buildSides, hfb] at hb; simp at hb
    | some b =>
      rw [buildSides, hfb] at hb
      have hb2 : (buildSides r (st.siblings ++ [q]) qs).isSome = true := by
        cases hx : buildSides r (st.siblings ++ [q]) qs with
        | none => rw [hx] at hb; simp at hb
        | some l => rfl
      obtain ⟨st1, hstep, hec1, hsb1⟩ := processParent_ok r stop st q b hs hfb
      have hs1 : st1.siblings ≠ [] := by rw [hsb1]; simp
      have hb3 : (buildSides r st1.siblings qs).isSome = true := by rw [hsb1]; exact hb2
      obtain ⟨st2, hfold, hec2, hsb2⟩ := ih st1 hs1 hb3
      refine ⟨st2, ?_, hec2.trans hec1, ?_⟩
      · simp only [List.foldlM]
        rw [hstep]
        simp only [bind, Except.bind]
        exact hfold
      · rw [hsb2, hsb1]
        simp

/-- Whatever the earlier side parents do, a later parent `pj` whose merge
base is empty against every sibling queued before it makes the parent loop
error out. -/
theorem foldl_fails (r : Repo) (stop : Option Hash) (pj : Hash) (rest : List Hash) :
    ∀ (xs : List Hash) (st : LoopState),
      st.siblings ≠ [] →
      (∀ s ∈ st.siblings ++ xs, r.mergeBase pj s = []) →
      ∃ a b, (xs ++ pj :: rest).foldlM (processParent r stop) st = .error (a, b) := by
  intro xs
  induction xs with
  | nil =>
    intro st hs hall
    have hfb : findMergeBase r pj st.siblings.reverse = Option.none :=
      findMergeBase_none r pj _ fun s hsm =>
        hall s (by simpa using List.mem_reverse.mp hsm)
    refine ⟨st.entryCur, pj, ?_⟩
    simp only [List.nil_append, List.foldlM]
    rw [processParent_err r stop st pj hs hfb]
    simp [bind, Except.bind]
  | cons x xs ih =>
    intro st hs hall
    simp only [List.cons_append, List.foldlM]
    cases hfb : findMergeBase r x st.siblings.reverse with
    | none =>
      refine ⟨st.entryCur, x, ?_⟩
      rw [processParent_err r stop st x hs hfb]
      simp [bind, Except.bind]
    | some b =>
      obtain ⟨st1, hstep, hec1, hsb1⟩ := processParent_ok r stop st x b hs hfb
      have hs1 : st1.siblings ≠ [] := by rw [hsb1]; simp
      have hall1 : ∀ s ∈ st1.siblings ++ xs, r.mergeBase pj s = [] := by
        intro s hsm
        apply hall s
        rw [hsb1] at hsm
        simp only [List.append_assoc, List.mem_append, List.mem_cons, List.mem_singleton] at hsm ⊢
        tauto
      obtain ⟨a, b2, hfold⟩ := ih st1 hs1 hall1
      refine ⟨a, b2, ?_⟩
      rw [hstep]
      simp only [bind, Except.bind]
      exact hfold

/-- C5: when any parent of index at least 1 of a merge commit has no
non-empty merge base with any of the already queued sibling parents, the
walk fails instead of yielding further commits: when the earlier side
parents all find their merge bases the error is the
"could not find merge base" failure naming the two commits the Go message
interpolates (the entry's current, already overwritten with parent 0, and
the failing parent), and in any case `Next` returns a merge-base failure
and the walk returns its error. -/
theorem C5_no_merge_base_fails :
    (∀ (r : Repo) (below : List Entry) (c : Hash) (stop : Option Hash)
       (p0 : Hash) (qs : List Hash) (pj : Hash) (rest : List Hash) (fuel : Nat),
       r.parents c = p0 :: qs ++ pj :: rest →
       (buildSides r [p0] qs).isSome = true →
       (∀ s ∈ p0 :: qs, r.mergeBase pj s = []) →
       next r (below ++ [⟨c, stop⟩]) = .fail p0 pj ∧
       walk r (fuel + 1) (below ++ [⟨c, stop⟩]) = .error (.noMergeBase p0 pj))
    ∧ (∀ (r : Repo) (below : List Entry) (c : Hash) (stop : Option Hash)
       (p0 : Hash) (qs : List Hash) (pj : Hash) (rest : List Hash) (fuel : Nat),
       r.parents c = p0 :: qs ++ pj :: rest →
       (∀ s ∈ p0 :: qs, r.mergeBase pj s = []) →
       ∃ a b, next r (below ++ [⟨c, stop⟩]) = .fail a b ∧
         walk r (fuel + 1) (below ++ [⟨c, stop⟩]) = .error (.noMergeBase a b)) := by
  have hstep0 : ∀ (r : Repo) (below : List Entry) (c : Hash) (stop : Option Hash) (p0 : Hash),
      ∃ pr, processParent r stop (⟨below, true, c, [], []⟩ : LoopState) p0
        = .ok ⟨below, pr, p0, [], [p0]⟩ := by
    intro r below c stop p0
    by_cases hsp : stop = some p0
    · exact ⟨false, by simp [processParent, hsp, popLast]⟩
    · exact ⟨true, by simp [processParent, if_neg hsp]⟩
  constructor
  · intro r below c stop p0 qs pj rest fuel hpar hbs hall
    obtain ⟨pr, h0⟩ := hstep0 r below c stop p0
    obtain ⟨st2, hfold, hec2, hsb2⟩ :=
      foldl_reaches r stop qs (⟨below, pr, p0, [], [p0]⟩ : LoopState) (by simp)
        (by simpa using hbs)
    have hs2 : st2.siblings ≠ [] := by rw [hsb2]; simp
    have hfb2 : findMergeBase r pj st2.siblings.reverse = Option.none := by
      apply findMergeBase_none
      intro s hsm
      apply hall s
      rw [hsb2] at hsm
      simpa using List.mem_reverse.mp hsm
    have herr := processParent_err r stop st2 pj hs2 hfb2
    have hnext : next r (below ++ [⟨c, stop⟩]) = .fail p0 pj := by
      simp only [next, List.getLast?_concat, List.dropLast_concat, hpar, List.foldlM,
        List.append_eq]
      rw [h0]
      simp only [bind, Except.bind]
      rw [foldlM_append_except, hfold]
      simp only [bind, Except.bind, List.foldlM]
      rw [herr, hec2]
    refine ⟨hnext, ?_⟩
    simp [walk, hnext]
  · intro r below c stop p0 qs pj rest fuel hpar hall
    obtain ⟨pr, h0⟩ := hstep0 r below c stop p0
    obtain ⟨a, b, hfold⟩ :=
      foldl_fails r stop pj rest qs (⟨below, pr, p0, [], [p0]⟩ : LoopState) (by simp)
        (by simpa using hall)
    have hnext : next r (below ++ [⟨c, stop⟩]) = .fail a b := by
      simp only [next, List.getLast?_concat, List.dropLast_concat, hpar, List.foldlM,
        List.append_eq]
      rw [h0]
      simp only [bind, Except.bind]
      rw [hfold]
    refine ⟨a, b, hnext, ?_⟩
    simp [walk, hnext]

/-- C5 witness: on the broken octopus graph the third parent (index 2) has
no merge base with either queued sibling, although the second parent found
its own, and the walk fails with the merge-base error naming parent 0 (into
which the entry's current was already moved) and the failing parent 2. -/
theorem C5_witness :
    next octoBrokenRepo [⟨5, Option.none⟩] = .fail 0 2 ∧
    walk octoBrokenRepo 4 [⟨5, Option.none⟩] = .error (.noMergeBase 0 2) := by
  have h := C5_no_merge_base_fails.1 octoBrokenRepo [] 5 Option.none 0 [1] 2 [] 3 rfl
    (by decide) (by decide)
  simpa using h

/-- C6: yielding a commit with zero parents empties the whole queue,
discarding every pending side-branch entry, so the walk ends with that
commit and the following pull reports end of iteration. -/
theorem C6_root_terminates :
    (∀ (r : Repo) (below : List Entry) (c : Hash) (stop : Option Hash),
       r.parents c = [] →
       next r (below ++ [⟨c, stop⟩]) = .yield c [])
    ∧ (∀ (r : Repo) (below : List Entry) (c : Hash) (stop : Option Hash) (fuel : Nat),
       r.parents c = [] →
       walk r (fuel + 2) (below ++ [⟨c, stop⟩]) = .ok [c])
    ∧ ∀ r : Repo, next r [] = .eof := by
  have h1 : ∀ (r : Repo) (below : List Entry) (c : Hash) (stop : Option Hash),
      r.parents c = [] → next r (below ++ [⟨c, stop⟩]) = .yield c [] := by
    intro r below c stop hpar
    simp [next, List.getLast?_concat, List.dropLast_concat, hpar, List.foldlM, pure, Except.pure]
  refine ⟨h1, ?_, fun r => rfl⟩
  intro r below c stop fuel hpar
  have h2 := h1 r below c stop hpar
  have h3 : next r [] = NextResult.eof := rfl
  simp [walk, h2, h3, Except.map]

/-- C6 witness: the root commit 0 of the octopus graph, reached while a
side-branch entry is still queued below, terminates the whole walk. -/
theorem C6_witness :
    next octoRepo [⟨7, Option.none⟩, ⟨0, Option.none⟩] = .yield 0 [] := by
  have h := C6_root_terminates.1 octoRepo [⟨7, Option.none⟩] 0 Option.none rfl
  simpa using h

/-- C10: `Next` on an empty queue returns end of iteration (`io.EOF`), never
an error or a commit; `Close` empties the queue, is idempotent, and makes
every subsequent `Next` report end of iteration. -/
theorem C10_empty_queue_eof :
    (∀ r : Repo, next r [] = .eof)
    ∧ (∀ q : List Entry, close (close q) = close q)
    ∧ ∀ (r : Repo) (q : List Entry), next r (close q) = .eof :=
  ⟨fun _ => rfl, fun _ => rfl, fun _ _ => rfl⟩

/-- A commit that is neither breaking nor mapped by any rule leaves the
accumulator untouched. -/
theorem applyCommit_noop (rs : List ReleaseRule) (acc : Version × Bool) (c : ConvCommit)
    (hb : c.breaking = false) (hl : lookupRule rs c.ctype = Option.none) :
    applyCommit rs acc c = .ok acc := by
  simp [applyCommit, hb, hl]

/-- A run of commits that trigger no bump leaves the accumulator
untouched. -/
theorem foldl_noop (rs : List ReleaseRule) :
    ∀ (xs : List ConvCommit) (acc : Version × Bool),
      (∀ x ∈ xs, x.breaking = false ∧ lookupRule rs x.ctype = Option.none) →
      xs.foldlM (applyCommit rs) acc = .ok acc := by
  intro xs
  induction xs with
  | nil => intro acc h; simp [List.foldlM, pure, Except.pure]
  | cons x rest ih =>
    intro acc h
    have hx := h x (List.mem_cons_self _ _)
    simp only [List.foldlM]
    rw [applyCommit_noop rs acc x hx.1 hx.2]
    simp only [bind, Except.bind]
    exact ih acc fun y hy => h y (List.mem_cons_of_mem _ hy)

/-- A commit implying bump level `l` (breaking, or mapped to the level's
string) applies exactly the single increment at `l` and marks a new
release. -/
theorem applyCommit_level (rs : List ReleaseRule) (acc : Version × Bool) (c : ConvCommit)
    (l : Level)
    (h : (c.breaking = true ∧ l = .major) ∨
         (c.breaking = false ∧ lookupRule rs c.ctype = some (levelName l))) :
    applyCommit rs acc c = .ok (applyLevel l acc.fst, true) := by
  rcases h with ⟨hb, hl⟩ | ⟨hb, hl⟩
  · subst hl; simp [applyCommit, hb, applyLevel]
  · cases l
    · simp [applyCommit, hb, hl, levelName, applyLevel]
    · simp only [applyCommit, hb, hl, levelName, applyLevel]
      rw [if_neg (show ¬ minorR = patchR by decide)]
      simp
    · simp only [applyCommit, hb, hl, levelName, applyLevel]
      rw [if_neg (show ¬ majorR = patchR by decide), if_neg (show ¬ majorR = minorR by decide)]
      simp

/-- C2 counterexample: from the prior real release 1.0.0 the commit set
feat then fix yields 1.1.1, not the 1.1.0 that a single increment at the
strongest level (minor) would give: the computation the repository's tests
pin down bumps once per commit, not once per set. -/
theorem C2_counterexample :
    computeNewSemver defaultRules ⟨1, 0, 0⟩ [⟨featT, false⟩, ⟨fixT, false⟩]
      = .ok (⟨1, 1, 1⟩, true)
    ∧ specComputeOnce defaultRules ⟨1, 0, 0⟩ [⟨featT, false⟩, ⟨fixT, false⟩]
      = .ok (⟨1, 1, 0⟩, true)
    ∧ (⟨1, 1, 1⟩ : Version) ≠ ⟨1, 1, 0⟩ :=
  ⟨rfl, rfl, by decide⟩

/-- C2 (amended): the computation applies one increment per bump-implying
commit, oldest first; whenever exactly one walked commit implies a bump, the
result is precisely the claim's single-increment table applied to the
baseline — major gives (major+1, 0, 0), minor gives (major, minor+1, 0),
patch gives (major, minor, patch+1) — and a set implying no bump yields no
new release and an unchanged version. -/
theorem C2_single_bump_per_commit :
    (∀ (rs : List ReleaseRule) (baseline : Version) (pre post : List ConvCommit)
       (c : ConvCommit) (l : Level),
       (∀ x ∈ pre, x.breaking = false ∧ lookupRule rs x.ctype = Option.none) →
       (∀ x ∈ post, x.breaking = false ∧ lookupRule rs x.ctype = Option.none) →
       ((c.breaking = true ∧ l = .major) ∨
        (c.breaking = false ∧ lookupRule rs c.ctype = some (levelName l))) →
       computeNewSemver rs baseline (pre ++ c :: post) = .ok (applyLevel l baseline, true))
    ∧ (∀ (rs : List ReleaseRule) (baseline : Version) (commits : List ConvCommit),
       (∀ x ∈ commits, x.breaking = false ∧ lookupRule rs x.ctype = Option.none) →
       computeNewSemver rs baseline commits = .ok (baseline, false))
    ∧ ∀ v : Version,
       applyLevel .major v = ⟨v.major + 1, 0, 0⟩ ∧
       applyLevel .minor v = ⟨v.major, v.minor + 1, 0⟩ ∧
       applyLevel .patch v = ⟨v.major, v.minor, v.patch + 1⟩ := by
  refine ⟨?_, ?_, fun v => ⟨rfl, rfl, rfl⟩⟩
  · intro rs baseline pre post c l hpre hpost hc
    unfold computeNewSemver
    rw [foldlM_append_except, foldl_noop rs pre (baseline, false) hpre]
    simp only [bind, Except.bind, List.foldlM]
    rw [applyCommit_level rs (baseline, false) c l hc]
    simp only [bind, Except.bind]
    exact foldl_noop rs post _ hpost
  · intro rs baseline commits h
    exact foldl_noop rs commits _ h

/-- C2 witness: from 1.0.0, a no-op commit, one feat and another no-op
commit give exactly the single minor increment 1.1.0. -/
theorem C2_witness :
    computeNewSemver defaultRules ⟨1, 0, 0⟩
      ([⟨choresT, false⟩] ++ ⟨featT, false⟩ :: [⟨styleT, false⟩])
      = .ok (applyLevel .minor ⟨1, 0, 0⟩, true) :=
  C2_single_bump_per_commit.1 defaultRules ⟨1, 0, 0⟩ [⟨choresT, false⟩] [⟨styleT, false⟩]
    ⟨featT, false⟩ .minor (by decide) (by decide) (Or.inr ⟨rfl, by decide⟩)

/-- C3 counterexample: on an untagged repository the commit set of
`TestParser_ComputeNewSemverNumberOnUntaggedRepositoryWithMajorRelease`
(breaking feat, then fix) computes 1.0.1 — exactly what that test asserts —
although the strongest bump of the set is major, so the major bump does
compound with the later patch commit and the claim's "exactly 1.0.0" is
false. -/
theorem C3_counterexample :
    computeNewSemver defaultRules ⟨0, 0, 0⟩ [⟨featT, true⟩, ⟨fixT, false⟩]
      = .ok (⟨1, 0, 1⟩, true)
    ∧ strongestLevel defaultRules [⟨featT, true⟩, ⟨fixT, false⟩] = .ok (some .major)
    ∧ (⟨1, 0, 1⟩ : Version) ≠ ⟨1, 0, 0⟩ :=
  ⟨rfl, rfl, by decide⟩

/-- C3 (amended): on an untagged repository (baseline 0.0.0) a lone patch
commit yields 0.0.1, a lone minor commit 0.1.0 and a lone breaking commit
exactly 1.0.0; but bumps are applied per commit, so a breaking commit
followed by a fix yields 1.0.1, as the repository's own test expects. -/
theorem C3_untagged_versions :
    computeNewSemver defaultRules ⟨0, 0, 0⟩ [⟨fixT, false⟩] = .ok (⟨0, 0, 1⟩, true)
    ∧ computeNewSemver defaultRules ⟨0, 0, 0⟩ [⟨featT, false⟩] = .ok (⟨0, 1, 0⟩, true)
    ∧ computeNewSemver defaultRules ⟨0, 0, 0⟩ [⟨featT, true⟩] = .ok (⟨1, 0, 0⟩, true)
    ∧ computeNewSemver defaultRules ⟨0, 0, 0⟩ [⟨featT, true⟩, ⟨fixT, false⟩]
      = .ok (⟨1, 0, 1⟩, true) :=
  ⟨rfl, rfl, rfl, rfl⟩

/-- C4 counterexample: the default rule table maps `revert` to a patch
bump — `TestLocalCmd_Release` requires the `revert` commit to move 1.2.1 to
1.2.2 — so "every other change-type (e.g. revert ...) maps to no bump" is
false. -/
theorem C4_counterexample :
    lookupRule defaultRules revertT = some patchR
    ∧ lookupRule defaultRules revertT ≠ Option.none
    ∧ computeNewSemver defaultRules ⟨1, 2, 1⟩ [⟨revertT, false⟩] = .ok (⟨1, 2, 2⟩, true) :=
  ⟨rfl, by decide, rfl⟩

/-- C4 (amended): the default release rule table maps exactly feat to
minor, fix to patch, perf to patch and revert to patch; every other
change-type maps to no bump, lookup of an unknown type yields no bump
rather than an error, and under this table the thirteen-commit sequence of
`TestLocalCmd_Release` computes exactly the 1.2.2 the test asserts. -/
theorem C4_default_rule_table :
    lookupRule defaultRules featT = some minorR
    ∧ lookupRule defaultRules fixT = some patchR
    ∧ lookupRule defaultRules perfT = some patchR
    ∧ lookupRule defaultRules revertT = some patchR
    ∧ (∀ t : String, t ≠ featT → t ≠ fixT → t ≠ perfT → t ≠ revertT →
        lookupRule defaultRules t = Option.none)
    ∧ computeNewSemver defaultRules ⟨0, 0, 0⟩ localCmdReleaseCommits = .ok (⟨1, 2, 2⟩, true) := by
  refine ⟨rfl, rfl, rfl, rfl, ?_, rfl⟩
  intro t h1 h2 h3 h4
  have b1 : (featT == t) = false := beq_eq_false_iff_ne.mpr (Ne.symm h1)
  have b2 : (fixT == t) = false := beq_eq_false_iff_ne.mpr (Ne.symm h2)
  have b3 : (perfT == t) = false := beq_eq_false_iff_ne.mpr (Ne.symm h3)
  have b4 : (revertT == t) = false := beq_eq_false_iff_ne.mpr (Ne.symm h4)
  simp [lookupRule, defaultRules, List.find?, b1, b2, b3, b4]

/-- C4 witness: the unmapped change-type `chores` of the test sequence
looks up to no bump. -/
theorem C4_witness : lookupRule defaultRules choresT = Option.none := by
  have h := C4_default_rule_table
  exact h.2.2.2.2.1 choresT (by decide) (by decide) (by decide) (by decide)

/-- If the tail already holds a duplicate commit type, so does any
extension to the left. -/
theorem hasDuplicates_append_left :
    ∀ (xs ys : List ReleaseRule), hasDuplicates ys = true →
      hasDuplicates (xs ++ ys) = true := by
  intro xs ys h
  induction xs with
  | nil => simpa using h
  | cons x rest ih => simp [hasDuplicates, ih]

/-- C7: a rule list in which the same change-type occurs in two different
positions — whatever the two bump levels are — fails table construction
with the duplicate-rule error. -/
theorem C7_duplicate_rules_rejected :
    ∀ (rs1 : List ReleaseRule) (r1 : ReleaseRule) (rs2 : List ReleaseRule)
      (r2 : ReleaseRule) (rs3 : List ReleaseRule),
      r1.commitType = r2.commitType →
      rulesInit (rs1 ++ r1 :: rs2 ++ r2 :: rs3) = .error .duplicate := by
  intro rs1 r1 rs2 r2 rs3 heq
  have hmem : r2 ∈ rs2 ++ r2 :: rs3 :=
    List.mem_append_right _ (List.mem_cons_self _ _)
  have hany : (rs2 ++ r2 :: rs3).any (fun y => y.commitType == r1.commitType) = true :=
    List.any_eq_true.mpr ⟨r2, hmem, by simp [beq_iff_eq, heq]⟩
  have htail : hasDuplicates (r1 :: (rs2 ++ r2 :: rs3)) = true := by
    simp [hasDuplicates, hany]
  have hdup := hasDuplicates_append_left rs1 (r1 :: (rs2 ++ r2 :: rs3)) htail
  simp [rulesInit, hdup]

/-- C7 witness: the two disagreeing feat rules of
`TestLocalCmd_InvalidCustomRules` are rejected at construction. -/
theorem C7_witness :
    rulesInit [⟨featT, minorR⟩, ⟨featT, patchR⟩] = .error .duplicate :=
  C7_duplicate_rules_rejected [] ⟨featT, minorR⟩ [] ⟨featT, patchR⟩ [] rfl

/-- C8: when some walked commit's change-type is mapped to a release-type
string outside major/minor/patch, the version computation fails with an
error (whatever the surrounding commits do), while table construction
itself accepts the rule — the failure happens at computation time, not at
configuration-load time. -/
theorem C8_unknown_release_type_fatal :
    ∀ (rs : List ReleaseRule) (baseline : Version) (pre post : List ConvCommit)
      (c : ConvCommit) (rel : String),
      c.breaking = false →
      lookupRule rs c.ctype = some rel →
      rel ≠ patchR → rel ≠ minorR → rel ≠ majorR →
      (∃ e, computeNewSemver rs baseline (pre ++ c :: post) = .error e)
      ∧ (hasDuplicates rs = false → rulesInit rs = .ok rs) := by
  intro rs baseline pre post c rel hb hl h1 h2 h3
  constructor
  · have herr : ∀ acc : Version × Bool, applyCommit rs acc c
        = .error (.unknownReleaseType rel) := by
      intro acc
      simp [applyCommit, hb, hl, h1, h2, h3]
    suffices h : ∀ (xs : List ConvCommit) (acc : Version × Bool),
        ∃ e, (xs ++ c :: post).foldlM (applyCommit rs) acc = .error e from
      h pre (baseline, false)
    intro xs
    induction xs with
    | nil =>
      intro acc
      refine ⟨.unknownReleaseType rel, ?_⟩
      simp only [List.nil_append, List.foldlM]
      rw [herr acc]
      simp [bind, Except.bind]
    | cons x rest ih =>
      intro acc
      simp only [List.cons_append, List.foldlM]
      cases hfx : applyCommit rs acc x with
      | error e => exact ⟨e, by simp [bind, Except.bind, hfx]⟩
      | ok b =>
        obtain ⟨e, he⟩ := ih b
        exact ⟨e, by simp [bind, Except.bind, hfx, he]⟩
  · intro hnd; simp [rulesInit, hnd]

/-- C8 witness: the rule table of `TestParser_UnknownReleaseType` (fix
mapped to "unknown") is accepted at construction but fails the computation
on the single fix commit. -/
theorem C8_witness :
    (∃ e, computeNewSemver [⟨fixT, unknownR⟩] ⟨0, 0, 0⟩ ([] ++ ⟨fixT, false⟩ :: [])
      = .error e)
    ∧ (hasDuplicates [⟨fixT, unknownR⟩] = false →
       rulesInit [⟨fixT, unknownR⟩] = .ok [⟨fixT, unknownR⟩]) :=
  C8_unknown_release_type_fatal [⟨fixT, unknownR⟩] ⟨0, 0, 0⟩ [] [] ⟨fixT, false⟩ unknownR
    rfl rfl (by decide) (by decide) (by decide)

theorem lexLe_refl : ∀ l : List Char, lexLe l l := by
  intro l
  induction l with
  | nil => exact True.intro
  | cons x xs ih => exact Or.inr ⟨rfl, ih⟩

theorem lexLe_total : ∀ a b : List Char, lexLe a b ∨ lexLe b a := by
  intro a
  induction a with
  | nil => intro b; exact Or.inl True.intro
  | cons x xs ih =>
    intro b
    cases b with
    | nil => exact Or.inr True.intro
    | cons y ys =>
      rcases Nat.lt_trichotomy x.toNat y.toNat with h | h | h
      · exact Or.inl (Or.inl h)
      · rcases ih ys with h2 | h2
        · exact Or.inl (Or.inr ⟨h, h2⟩)
        · exact Or.inr (Or.inr ⟨h.symm, h2⟩)
      · exact Or.inr (Or.inl h)

theorem lexLe_trans : ∀ {a b c : List Char}, lexLe a b → lexLe b c → lexLe a c := by
  intro a
  induction a with
  | nil => intro b c h1 h2; exact True.intro
  | cons x xs ih =>
    intro b c h1 h2
    cases b with
    | nil => exact False.elim h1
    | cons y ys =>
      cases c with
      | nil => exact False.elim h2
      | cons z zs =>
        rcases h1 with h1 | ⟨h1e, h1r⟩
        · rcases h2 with h2 | ⟨h2e, h2r⟩
          · exact Or.inl (Nat.lt_trans h1 h2)
          · exact Or.inl (h2e ▸ h1)
        · rcases h2 with h2 | ⟨h2e, h2r⟩
          · exact Or.inl (h1e ▸ h2)
          · exact Or.inr ⟨h1e.trans h2e, ih h1r h2r⟩

theorem prerelLe_refl : ∀ a : Option (List Char), prerelLe a a := by
  intro a
  cases a with
  | none => exact True.intro
  | some x => exact lexLe_refl x

theorem prerelLe_total : ∀ a b : Option (List Char), prerelLe a b ∨ prerelLe b a := by
  intro a b
  cases a with
  | none =>
    cases b with
    | none => exact Or.inl True.intro
    | some y => exact Or.inr True.intro
  | some x =>
    cases b with
    | none => exact Or.inl True.intro
    | some y => exact lexLe_total x y

theorem prerelLe_trans : ∀ {a b c : Option (List Char)},
    prerelLe a b → prerelLe b c → prerelLe a c := by
  intro a b c h1 h2
  cases a with
  | none =>
    cases b with
    | none => exact h2
    | some y => exact False.elim h1
  | some x =>
    cases c with
    | none => exact True.intro
    | some z =>
      cases b with
      | none => exact False.elim h2
      | some y => exact lexLe_trans h1 h2

theorem vlt_trans {a b c : Version} (h1 : vlt a b) (h2 : vlt b c) : vlt a c := by
  unfold vlt at h1 h2 ⊢
  omega

theorem vlt_trichotomy (a b : Version) : vlt a b ∨ vlt b a ∨ a = b := by
  obtain ⟨a1, a2, a3⟩ := a
  obtain ⟨b1, b2, b3⟩ := b
  simp only [vlt, Version.mk.injEq]
  omega

theorem svle_refl (a : SemVer) : svle a a := Or.inr ⟨rfl, prerelLe_refl a.prerel⟩

theorem svle_total (a b : SemVer) : svle a b ∨ svle b a := by
  unfold svle
  rcases vlt_trichotomy a.core b.core with h | h | h
  · exact Or.inl (Or.inl h)
  · exact Or.inr (Or.inl h)
  · rcases prerelLe_total a.prerel b.prerel with h2 | h2
    · exact Or.inl (Or.inr ⟨h, h2⟩)
    · exact Or.inr (Or.inr ⟨h.symm, h2⟩)

theorem svle_trans {a b c : SemVer} (h1 : svle a b) (h2 : svle b c) : svle a c := by
  unfold svle at h1 h2 ⊢
  rcases h1 with h1 | ⟨h1e, h1p⟩
  · rcases h2 with h2 | ⟨h2e, h2p⟩
    · exact Or.inl (vlt_trans h1 h2)
    · exact Or.inl (h2e ▸ h1)
  · rcases h2 with h2 | ⟨h2e, h2p⟩
    · exact Or.inl (h1e ▸ h2)
    · exact Or.inr ⟨h1e.trans h2e, prerelLe_trans h1p h2p⟩

/-- The maximum scan returns an element of the scanned list (or its seed)
that every scanned version is below. -/
theorem foldl_pick (l : List (TagRef × SemVer)) :
    ∀ (acc : Option (TagRef × SemVer)) (t : TagRef) (v : SemVer),
      l.foldl pickLater acc = some (t, v) →
      ((t, v) ∈ l ∨ acc = some (t, v)) ∧
      (∀ tv ∈ l, svle tv.snd v) ∧
      ∀ (t0 : TagRef) (v0 : SemVer), acc = some (t0, v0) → svle v0 v := by
  induction l with
  | nil =>
    intro acc t v h
    simp only [List.foldl_nil] at h
    refine ⟨Or.inr h, by simp, ?_⟩
    intro t0 v0 h0
    rw [h0] at h
    cases h
    exact svle_refl v
  | cons tv0 rest ih =>
    intro acc t v h
    simp only [List.foldl_cons] at h
    obtain ⟨hmem, hub, hacc⟩ := ih (pickLater acc tv0) t v h
    have hstep : ∀ (t0 : TagRef) (v0 : SemVer), pickLater acc tv0 = some (t0, v0) →
        svle v0 v := hacc
    have hnew : svle tv0.snd v := by
      cases hacc2 : acc with
      | none =>
        have : pickLater Option.none tv0 = some tv0 := rfl
        exact hstep tv0.fst tv0.snd (by rw [hacc2] at *; simpa using this)
      | some cur =>
        by_cases hle : svle cur.snd tv0.snd
        · have : pickLater (some cur) tv0 = some tv0 := by simp [pickLater, hle]
          exact hstep tv0.fst tv0.snd (by rw [hacc2]; simpa using this)
        · have hc : pickLater (some cur) tv0 = some cur := by simp [pickLater, hle]
          have hcv : svle cur.snd v := hstep cur.fst cur.snd (by rw [hacc2]; simpa using hc)
          rcases svle_total cur.snd tv0.snd with h1 | h1
          · exact absurd h1 hle
          · exact svle_trans h1 hcv
    refine ⟨?_, ?_, ?_⟩
    · rcases hmem with hin | heqp
      · exact Or.inl (List.mem_cons_of_mem _ hin)
      · cases hacc3 : acc with
        | none =>
          rw [hacc3] at heqp
          have : tv0 = (t, v) := by simpa [pickLater] using heqp
          exact Or.inl (this ▸ List.mem_cons_self _ _)
        | some cur =>
          rw [hacc3] at heqp
          by_cases hle : svle cur.snd tv0.snd
          · have : tv0 = (t, v) := by simpa [pickLater, hle] using heqp
            exact Or.inl (this ▸ List.mem_cons_self _ _)
          · have : cur = (t, v) := by simpa [pickLater, hle] using heqp
            exact Or.inr (by rw [this])
    · intro tv htv
      rcases List.mem_cons.mp htv with h1 | h1
      · rw [h1]; exact hnew
      · exact hub tv h1
    · intro t0 v0 h0
      cases hacc3 : acc with
      | none => rw [hacc3] at h0; cases h0
      | some cur =>
        rw [hacc3] at h0
        cases h0
        by_cases hle : svle v0 tv0.snd
        · have : pickLater (some (t0, v0)) tv0 = some tv0 := by simp [pickLater, hle]
          exact svle_trans hle (hstep tv0.fst tv0.snd (by rw [hacc3]; simpa using this))
        · have hc : pickLater (some (t0, v0)) tv0 = some (t0, v0) := by simp [pickLater, hle]
          exact hstep t0 v0 (by rw [hacc3]; simpa using hc)

/-- C9: the tag locator keeps only tags whose name (after stripping the
configured leader) parses against the full semantic-version tag grammar,
`MAJOR.MINOR.PATCH[-prerelease][+buildmetadata]`, and returns a kept tag
whose version dominates every kept tag under the spec's ordering (cores
numerically, a bare version above its prerelease twin, prereleases
lexically, build metadata ignored; latest-created winning exact ties); when
nothing parses the baseline is 0.0.0; on the claim's example set (2.0.0,
2.0.1, 3.0.0, 2.5.0, 0.1.0 plus one invalid name) it selects 3.0.0; a lone
prerelease tag 3.0.0-rc is kept and becomes the baseline; 1.0.0 beats
1.0.0-rc in either creation order; and the decorated names the tool itself
creates (1.1.1-alpha, 1.1.1+foobarbaz) parse. -/
theorem C9_latest_semver_tag :
    (∀ (pre : String) (tags : List TagRef) (t : TagRef) (v : SemVer),
       latestSemverTag pre tags = some (t, v) →
       (t, v) ∈ semverTags pre tags ∧ ∀ tv ∈ semverTags pre tags, svle tv.snd v)
    ∧ (∀ (pre : String) (tags : List TagRef),
       latestSemverTag pre tags = Option.none → baselineOf pre tags = zeroSemVer)
    ∧ latestSemverTag emptyS exampleTags
      = some (⟨s300, 4⟩, ⟨⟨3, 0, 0⟩, Option.none, Option.none⟩)
    ∧ latestSemverTag emptyS [⟨s300rc, 9⟩]
      = some (⟨s300rc, 9⟩, ⟨⟨3, 0, 0⟩, some rcS.toList, Option.none⟩)
    ∧ baselineOf emptyS [⟨s300rc, 9⟩] = ⟨⟨3, 0, 0⟩, some rcS.toList, Option.none⟩
    ∧ latestSemverTag emptyS [⟨s100rc, 1⟩, ⟨s100, 2⟩]
      = some (⟨s100, 2⟩, ⟨⟨1, 0, 0⟩, Option.none, Option.none⟩)
    ∧ latestSemverTag emptyS [⟨s100, 2⟩, ⟨s100rc, 1⟩]
      = some (⟨s100, 2⟩, ⟨⟨1, 0, 0⟩, Option.none, Option.none⟩)
    ∧ parseSemVer s111alpha.toList = some ⟨⟨1, 1, 1⟩, some alphaS.toList, Option.none⟩
    ∧ parseSemVer s111meta.toList = some ⟨⟨1, 1, 1⟩, Option.none, some fooMetaS.toList⟩
    ∧ baselineOf emptyS [⟨sNotSemver, 3⟩] = zeroSemVer := by
  refine ⟨?_, ?_, by rfl, by rfl, by rfl, by rfl, by rfl, by rfl, by rfl, by rfl⟩
  · intro pre tags t v h
    unfold latestSemverTag at h
    obtain ⟨hmem, hub, _⟩ := foldl_pick (semverTags pre tags) Option.none t v h
    refine ⟨?_, hub⟩
    rcases hmem with h1 | h1
    · exact h1
    · cases h1
  · intro pre tags h
    unfold baselineOf
    rw [h]

/-- C9 witness: on the example set, 3.0.0 is among the kept tags and every
kept tag's version is below it. -/
theorem C9_witness :
    (⟨s300, 4⟩, (⟨⟨3, 0, 0⟩, Option.none, Option.none⟩ : SemVer)) ∈ semverTags emptyS exampleTags
    ∧ ∀ tv ∈ semverTags emptyS exampleTags,
        svle tv.snd ⟨⟨3, 0, 0⟩, Option.none, Option.none⟩ :=
  C9_latest_semver_tag.1 emptyS exampleTags ⟨s300, 4⟩ ⟨⟨3, 0, 0⟩, Option.none, Option.none⟩ rfl

end SemRel
